import Mathlib

/-!
Verification of the yamldb key-value store and its referential-constraint
(schema) layer.

The development shallowly embeds the Go sources:
* the storage engine (`Disk`, the `YamlDb` operations) models the diskv-backed
  cache + backing-store pair described in the specification (the diskv library
  itself is an external collaborator of the repository);
* `Schema.delete` / `Schema.update` are translated from `schema.go`;
* `btreeIndexKeys` / `GetOrderedKeys` model the ordered-index enumeration;
* `advancedTransform` is translated from the key-to-path closure in `New`.

Keys are Lean `String`s; byte payloads are `List Nat`; the YAML encoder is
treated as a lossless opaque codec (spec §1/§4.3/§6), so the record layer
stores decoded values directly.
-/

namespace YamlDbProof

/-- Association-list lookup: first binding for the key, if any.  Models a
string-keyed finite map (a directory of files / an in-memory cache). -/
def lookupA {α : Type} (k : String) : List (String × α) → Option α
  | [] => none
  | (k', v) :: rest => if k' = k then some v else lookupA k rest

/-- Association-list removal of every binding for the key. -/
def eraseA {α : Type} (k : String) : List (String × α) → List (String × α)
  | [] => []
  | (k', v) :: rest => if k' = k then eraseA k rest else (k', v) :: eraseA k rest

/-- Association-list update: bind the key to the value, replacing any previous
binding. -/
def setA {α : Type} (k : String) (v : α) (l : List (String × α)) : List (String × α) :=
  (k, v) :: eraseA k l

theorem lookupA_eraseA_self {α : Type} (k : String) (l : List (String × α)) :
    lookupA k (eraseA k l) = none := by
  induction l with
  | nil => rfl
  | cons p rest ih =>
    obtain ⟨k', v⟩ := p
    by_cases h : k' = k
    · simp [eraseA, h, ih]
    · simp [eraseA, h, lookupA, ih]

theorem lookupA_eraseA_ne {α : Type} (k j : String) (l : List (String × α)) (h : j ≠ k) :
    lookupA j (eraseA k l) = lookupA j l := by
  induction l with
  | nil => rfl
  | cons p rest ih =>
    obtain ⟨k', v⟩ := p
    by_cases hk : k' = k
    · subst hk
      have h2 : ¬ (k' = j) := fun hh => h hh.symm
      simp [eraseA, lookupA, ih, h2]
    · simp [eraseA, hk, lookupA, ih]

theorem lookupA_setA_self {α : Type} (k : String) (v : α) (l : List (String × α)) :
    lookupA k (setA k v l) = some v := by
  simp [setA, lookupA]

/-- Error kinds surfaced by the store and the schema layer (spec §7): the
distinguished NotFound kind, the two constraint errors from `schema.go`, and
the "old reference to X not found" error from `Schema.Update`. -/
inductive DbError
  | notFound
  | deleteRestricted
  | updateRestricted
  | referenceNotFound (key : String)
  deriving DecidableEq

/-- Modelled from the spec: the diskv storage collaborator (not part of this
repository) as seen through the YamlDb wrapper — a backing store of files plus
a bounded in-memory cache, both keyed by the logical key (spec §3 "Cache
Entry", §4.2).  The cache-size bound and physical paths are abstracted away;
what is kept is which key maps to which payload in each layer. -/
structure Disk (α : Type) where
  backing : List (String × α)
  cache : List (String × α)

/-- Modelled from the spec: diskv `Has` — existence check, consulting the
cache first and then the backing store (spec §4.2 `has`). -/
def Disk.hasKey {α : Type} (d : Disk α) (k : String) : Bool :=
  (lookupA k d.cache).isSome || (lookupA k d.backing).isSome

/-- Modelled from the spec: diskv `Read` — serve from the cache when present,
otherwise read the backing store and populate the cache; NotFound when the key
is in neither layer (spec §4.2 `read`). -/
def Disk.read {α : Type} (d : Disk α) (k : String) : Except DbError α × Disk α :=
  match lookupA k d.cache with
  | some v => (Except.ok v, d)
  | none =>
    match lookupA k d.backing with
    | some v => (Except.ok v, { d with cache := setA k v d.cache })
    | none => (Except.error DbError.notFound, d)

/-- Modelled from the spec: diskv `Write` — persist the payload in the backing
store and invalidate the cache entry for the key (spec §4.2 `write`, §3
invalidate-on-write). -/
def Disk.write {α : Type} (d : Disk α) (k : String) (v : α) : Disk α :=
  { backing := setA k v d.backing, cache := eraseA k d.cache }

/-- Modelled from the spec: diskv `Erase` — drop the cache entry, then remove
the backing entry, reporting NotFound when the backing store does not hold the
key (spec §4.2 `erase`: "fails with NotFound if absent; second call must
report NotFound"). -/
def Disk.eraseKey {α : Type} (d : Disk α) (k : String) : Disk α × Option DbError :=
  let d' : Disk α := { d with cache := eraseA k d.cache }
  if (lookupA k d.backing).isSome then
    ({ d' with backing := eraseA k d.backing }, none)
  else
    (d', some DbError.notFound)

namespace YamlDb

/-- YamlDb.WriteRaw (part_000): writes a raw payload, delegating to the disk
layer. -/
def WriteRaw {α : Type} (db : Disk α) (key : String) (data : α) : Disk α :=
  db.write key data

/-- YamlDb.ReadRaw (part_000): reads a raw payload, delegating to the disk
layer. -/
def ReadRaw {α : Type} (db : Disk α) (key : String) : Except DbError α × Disk α :=
  db.read key

/-- YamlDb.Write (part_000): marshals a value and writes it.  The YAML codec
is modelled as a lossless identity encoding, so this coincides with the raw
write. -/
def Write {α : Type} (db : Disk α) (key : String) (s : α) : Disk α :=
  db.write key s

/-- YamlDb.Read (part_000): reads and unmarshals a value (identity codec). -/
def Read {α : Type} (db : Disk α) (key : String) : Except DbError α × Disk α :=
  db.read key

/-- YamlDb.Delete (part_000): removes a resource, delegating to diskv
`Erase`. -/
def Delete {α : Type} (db : Disk α) (key : String) : Disk α × Option DbError :=
  db.eraseKey key

/-- YamlDb.Has (part_000): existence check, delegating to diskv `Has`. -/
def Has {α : Type} (db : Disk α) (key : String) : Bool :=
  db.hasKey key

/-- YamlDb.Update (part_000): read the stored value into the caller's `t`
(wholesale replacement, as YAML unmarshalling into the pointed-to struct),
apply the caller's mutator, and re-write under the same key.  The middle
component of the result models the caller's `t` after Go's in-place mutation:
unchanged when the read failed, and the written value on success. -/
def Update {α : Type} (db : Disk α) (key : String) (t : α) (updateFunc : α → α) :
    Disk α × α × Option DbError :=
  match Read db key with
  | (Except.error e, db1) => (db1, t, some e)
  | (Except.ok t1, db1) =>
    let t2 := updateFunc t1
    (Write db1 key t2, t2, none)

end YamlDb

/-- Claim C7: a successful WriteRaw of payload P under key K followed by
ReadRaw of K returns exactly P.  The first conjunct is the read immediately
after the write (served from the backing store, since the write invalidated
the cache entry); the second is a repeated read on the resulting state (served
from the cache populated by the first read).  Both serving paths return P. -/
theorem writeRaw_readRaw_roundtrip (db : Disk (List Nat)) (K : String) (P : List Nat) :
    (YamlDb.ReadRaw (YamlDb.WriteRaw db K P) K).1 = Except.ok P ∧
    (YamlDb.ReadRaw (YamlDb.ReadRaw (YamlDb.WriteRaw db K P) K).2 K).1 = Except.ok P := by
  constructor
  · simp [YamlDb.ReadRaw, YamlDb.WriteRaw, Disk.read, Disk.write,
      lookupA_eraseA_self, lookupA_setA_self]
  · simp [YamlDb.ReadRaw, YamlDb.WriteRaw, Disk.read, Disk.write,
      lookupA_eraseA_self, lookupA_setA_self]

/-- Claim C8: for a key K present in the store, Delete K succeeds, after which
Has K is false, ReadRaw K fails with NotFound, and a second Delete K reports
NotFound instead of silently succeeding. -/
theorem delete_then_notFound (db : Disk (List Nat)) (K : String)
    (hK : (lookupA K db.backing).isSome = true) :
    (YamlDb.Delete db K).2 = none ∧
    YamlDb.Has (YamlDb.Delete db K).1 K = false ∧
    (YamlDb.ReadRaw (YamlDb.Delete db K).1 K).1 = Except.error DbError.notFound ∧
    (YamlDb.Delete (YamlDb.Delete db K).1 K).2 = some DbError.notFound := by
  refine ⟨?_, ?_, ?_, ?_⟩
  · simp [YamlDb.Delete, Disk.eraseKey, hK]
  · simp [YamlDb.Delete, YamlDb.Has, Disk.eraseKey, Disk.hasKey, hK, lookupA_eraseA_self]
  · simp [YamlDb.Delete, YamlDb.ReadRaw, Disk.eraseKey, Disk.read, hK, lookupA_eraseA_self]
  · simp [YamlDb.Delete, Disk.eraseKey, hK, lookupA_eraseA_self]

/-- Witness for C8 at a concrete one-entry store. -/
theorem delete_then_notFound_witness :
    ((lookupA "k" (Disk.mk [("k", [1, 2])] ([] : List (String × List Nat))).backing).isSome
        = true) ∧
    (YamlDb.Delete (Disk.mk [("k", [1, 2])] []) "k").2 = none ∧
    YamlDb.Has (YamlDb.Delete (Disk.mk [("k", [1, 2])] []) "k").1 "k" = false ∧
    (YamlDb.ReadRaw (YamlDb.Delete (Disk.mk [("k", [1, 2])] []) "k").1 "k").1
        = Except.error DbError.notFound ∧
    (YamlDb.Delete (YamlDb.Delete (Disk.mk [("k", [1, 2])] []) "k").1 "k").2
        = some DbError.notFound := by
  have h := delete_then_notFound (Disk.mk [("k", [1, 2])] []) "k" (by rfl)
  exact ⟨by rfl, h.1, h.2.1, h.2.2.1, h.2.2.2⟩

/-! ### Referential constraint engine (`schema.go`) -/

/-- Action constant `Cascade` (`schema.go`): Go declares `type Action string`,
so actions are modelled as plain strings and unknown actions fall into the
no-op `default` branch exactly as in the Go `switch`. -/
def Cascade : String := "cascade"

/-- Action constant `Restrict` (`schema.go`). -/
def Restrict : String := "restrict"

/-- Action constant `NoAction` (`schema.go`). -/
def NoAction : String := "no action"

/-- Constraints (`schema.go`): per-reference actions for update and delete. -/
structure Constraints where
  update : String
  delete : String
  deriving DecidableEq

/-- SchemaReference (`schema.go`): a link to another stored schema. -/
structure SchemaReference where
  key : String
  constraints : Constraints
  deriving DecidableEq

/-- Schema (`schema.go`): versioned record envelope with an ordered reference
list and an opaque payload `data : δ`. -/
structure Schema (δ : Type) where
  version : Int
  key : String
  references : List SchemaReference
  data : δ
  deriving DecidableEq

/-- Body of the `for _, ref := range s.References` loop of `Schema.Delete`
(`schema.go` lines 60–84), translated iteration by iteration.  Each iteration
first processes the reference's OnDelete action (guarded by `db.Has(ref.Key)`)
and then — still inside the loop, as in the source — deletes the record itself
when present.  Errors abort the remaining iterations. -/
def Schema.deleteLoop {δ : Type} (s : Schema δ) :
    List SchemaReference → Disk (Schema δ) → Disk (Schema δ) × Option DbError
  | [], db => (db, none)
  | ref :: rest, db =>
    let step1 : Disk (Schema δ) × Option DbError :=
      if YamlDb.Has db ref.key then
        if ref.constraints.delete = Cascade then YamlDb.Delete db ref.key
        else if ref.constraints.delete = Restrict then (db, some DbError.deleteRestricted)
        else (db, none)
      else (db, none)
    match step1 with
    | (db1, some e) => (db1, some e)
    | (db1, none) =>
      match (if YamlDb.Has db1 s.key then YamlDb.Delete db1 s.key else (db1, none)) with
      | (db2, some e) => (db2, some e)
      | (db2, none) => Schema.deleteLoop s rest db2

/-- Schema.Delete (`schema.go` lines 60–84). -/
def Schema.delete {δ : Type} (s : Schema δ) (db : Disk (Schema δ)) :
    Disk (Schema δ) × Option DbError :=
  Schema.deleteLoop s s.references db

/-- Mutator passed by `Schema.Update` to `db.Update` (`schema.go` lines
103–109): set the schema's Key field to the new key, then run the
caller-supplied `onUpdate` callback if there is one. -/
def applyMutator {δ : Type} (updatedKey : String) (onUpdate : Option (Schema δ → Schema δ))
    (sch : Schema δ) : Schema δ :=
  let sch1 := { sch with key := updatedKey }
  match onUpdate with
  | some f => f sch1
  | none => sch1

/-- Body of the `for _, ref := range s.References` loop of `Schema.Update`
(`schema.go` lines 87–116).  Per iteration: referenced key must exist; a
Cascade OnUpdate falls through to the Restrict abort; otherwise
`db.Update(s.Key, s, mutator)` re-reads the stored record into `s`, applies
the mutator, and re-writes it under the same storage key `s.Key` (captured
before the read).  The threaded `Schema` value models Go's in-place mutation
of `s` through the pointer. -/
def Schema.updateLoop {δ : Type} (updatedKey : String) (onUpdate : Option (Schema δ → Schema δ)) :
    Schema δ → List SchemaReference → Disk (Schema δ) → Disk (Schema δ) × Option DbError
  | _, [], db => (db, none)
  | s, ref :: rest, db =>
    if YamlDb.Has db ref.key = false then (db, some (DbError.referenceNotFound ref.key))
    else if ref.constraints.update = Cascade ∨ ref.constraints.update = Restrict then
      (db, some DbError.updateRestricted)
    else
      match YamlDb.Update db s.key s (applyMutator updatedKey onUpdate) with
      | (db1, _, some e) => (db1, some e)
      | (db1, s1, none) => Schema.updateLoop updatedKey onUpdate s1 rest db1

/-- Schema.Update (`schema.go` lines 87–116). -/
def Schema.update {δ : Type} (s : Schema δ) (db : Disk (Schema δ)) (updatedKey : String)
    (onUpdate : Option (Schema δ → Schema δ)) : Disk (Schema δ) × Option DbError :=
  Schema.updateLoop updatedKey onUpdate s s.references db

/-- Record with no references, stored under its own key. -/
def schemaA0 : Schema Int := { version := 1, key := "a", references := [], data := 10 }

/-- Store holding only `schemaA0`. -/
def dbA0 : Disk (Schema Int) := { backing := [("a", schemaA0)], cache := [] }

/-- Claim C1 (code bug): on a record whose reference list is empty,
Schema.Delete returns success without deleting anything — the delete-self
block sits inside the per-reference loop, which never runs — so the record
itself is still present afterwards, contradicting the claimed "the record
itself is still deleted". -/
theorem schemaDelete_emptyRefs_leavesRecord :
    Schema.delete schemaA0 dbA0 = (dbA0, none) ∧
    YamlDb.Has (Schema.delete schemaA0 dbA0).1 "a" = true := by
  exact ⟨rfl, rfl⟩

/-- Referenced record "b" (no references of its own). -/
def schemaB0 : Schema Int := { version := 1, key := "b", references := [], data := 20 }

/-- Referenced record "c" (no references of its own). -/
def schemaC0 : Schema Int := { version := 1, key := "c", references := [], data := 30 }

/-- Reference to "b" with OnDelete = Cascade. -/
def refBCascade : SchemaReference :=
  { key := "b", constraints := { update := NoAction, delete := Cascade } }

/-- Reference to "c" with OnDelete = Restrict. -/
def refCRestrictDel : SchemaReference :=
  { key := "c", constraints := { update := NoAction, delete := Restrict } }

/-- Record "a" referencing "b" (Cascade) and then "c" (Restrict). -/
def schemaA2 : Schema Int :=
  { version := 1, key := "a", references := [refBCascade, refCRestrictDel], data := 10 }

/-- Store holding "a", "b" and "c". -/
def dbA2 : Disk (Schema Int) :=
  { backing := [("a", schemaA2), ("b", schemaB0), ("c", schemaC0)], cache := [] }

/-- Claim C2 (code bug): when the Restrict reference is preceded by a Cascade
reference, Schema.Delete does return the DeleteRestricted error, but by then
the first loop iteration has already deleted both the cascaded reference "b"
and the record "a" itself (the delete-self block runs at the end of every
iteration), contradicting "neither the record itself nor any of its references
is deleted ... except for references with OnDelete=Cascade". -/
theorem schemaDelete_restrictAfterCascade_deletesSelf :
    (Schema.delete schemaA2 dbA2).2 = some DbError.deleteRestricted ∧
    YamlDb.Has (Schema.delete schemaA2 dbA2).1 "a" = false ∧
    YamlDb.Has (Schema.delete schemaA2 dbA2).1 "b" = false ∧
    YamlDb.Has (Schema.delete schemaA2 dbA2).1 "c" = true := by
  exact ⟨rfl, rfl, rfl, rfl⟩

/-- Reference to "b" with OnUpdate = NoAction. -/
def refBNoAction : SchemaReference :=
  { key := "b", constraints := { update := NoAction, delete := NoAction } }

/-- Record "a" with the single NoAction reference to "b". -/
def schemaA1 : Schema Int :=
  { version := 1, key := "a", references := [refBNoAction], data := 10 }

/-- Store holding "a" and "b". -/
def dbA1 : Disk (Schema Int) :=
  { backing := [("a", schemaA1), ("b", schemaB0)], cache := [] }

/-- Record "z" with no references, stored under "z". -/
def schemaZ0 : Schema Int := { version := 1, key := "z", references := [], data := 5 }

/-- Store holding only `schemaZ0`. -/
def dbZ0 : Disk (Schema Int) := { backing := [("z", schemaZ0)], cache := [] }

/-- Counterexample to claim C3: updating record "a" (single existing NoAction
reference) to newKey "c" succeeds, yet the store holds nothing under storage
key "c" — the record is re-persisted under its original storage key "a" with
only its Key field set to "c".  Moreover a record with zero references is a
silent no-op: success, and again nothing stored under the new key. -/
theorem schemaUpdate_notUnderNewKey_cex :
    (Schema.update schemaA1 dbA1 "c" none).2 = none ∧
    lookupA "c" (Schema.update schemaA1 dbA1 "c" none).1.backing = none ∧
    lookupA "a" (Schema.update schemaA1 dbA1 "c" none).1.backing
      = some { schemaA1 with key := "c" } ∧
    (Schema.update schemaZ0 dbZ0 "c" none).2 = none ∧
    lookupA "c" (Schema.update schemaZ0 dbZ0 "c" none).1.backing = none := by
  exact ⟨rfl, rfl, rfl, rfl, rfl⟩

/-- Claim C3 (amended): for a record with exactly one reference, which exists
and has OnUpdate = NoAction, Schema.Update succeeds and re-persists the stored
record under its ORIGINAL storage key `s.key`, with the Key field set to the
new key and the caller's mutator applied; no entry is created under the new
key by this call (the test suite notes the caller is expected to move the file
separately). -/
theorem schemaUpdate_singleNoActionRef {δ : Type} (s t : Schema δ) (db : Disk (Schema δ))
    (ref : SchemaReference) (newKey : String) (onUpd : Option (Schema δ → Schema δ))
    (href : s.references = [ref])
    (hhas : YamlDb.Has db ref.key = true)
    (hupd : ref.constraints.update = NoAction)
    (hread : (YamlDb.Read db s.key).1 = Except.ok t) :
    (Schema.update s db newKey onUpd).2 = none ∧
    lookupA s.key (Schema.update s db newKey onUpd).1.backing
      = some (applyMutator newKey onUpd t) := by
  unfold Schema.update
  rw [href]
  rcases hr : YamlDb.Read db s.key with ⟨r, db1⟩
  rw [hr] at hread
  replace hread : r = Except.ok t := hread
  subst hread
  have hcon : ¬ (ref.constraints.update = Cascade ∨ ref.constraints.update = Restrict) := by
    rw [hupd]
    decide
  simp only [Schema.updateLoop, hhas, YamlDb.Update, hr, if_neg hcon]
  simp only [Bool.true_eq_false, if_false]
  constructor
  · trivial
  · exact lookupA_setA_self _ _ _

/-- Witness for the amended C3 on the concrete two-record store. -/
theorem schemaUpdate_singleNoActionRef_witness :
    (Schema.update schemaA1 dbA1 "newkey" none).2 = none ∧
    lookupA "a" (Schema.update schemaA1 dbA1 "newkey" none).1.backing
      = some (applyMutator "newkey" none schemaA1) := by
  have h := schemaUpdate_singleNoActionRef schemaA1 schemaA1 dbA1 refBNoAction
    "newkey" none rfl rfl rfl rfl
  exact h

/-- Reference to "c" with OnUpdate = Restrict. -/
def refCRestrictUpd : SchemaReference :=
  { key := "c", constraints := { update := Restrict, delete := NoAction } }

/-- Record "a" referencing "b" (OnUpdate NoAction) then "c" (OnUpdate
Restrict). -/
def schemaA3 : Schema Int :=
  { version := 1, key := "a", references := [refBNoAction, refCRestrictUpd], data := 10 }

/-- Store holding "a", "b" and "c" for the update counterexample. -/
def dbA3 : Disk (Schema Int) :=
  { backing := [("a", schemaA3), ("b", schemaB0), ("c", schemaC0)], cache := [] }

/-- Counterexample to claim C4: with the restricting reference in second
position, Schema.Update does fail with UpdateRestricted, but the first
(NoAction) iteration has already re-persisted the record under "a" with its
Key field rewritten to "z" — the store is not left unchanged. -/
theorem schemaUpdate_writesBeforeRestrict_cex :
    (Schema.update schemaA3 dbA3 "z" none).2 = some DbError.updateRestricted ∧
    lookupA "a" (Schema.update schemaA3 dbA3 "z" none).1.backing
      = some { schemaA3 with key := "z" } ∧
    lookupA "a" (Schema.update schemaA3 dbA3 "z" none).1.backing
      ≠ lookupA "a" dbA3.backing := by
  refine ⟨rfl, rfl, ?_⟩
  decide

/-- Claim C4 (amended): when the FIRST reference in the list exists and its
OnUpdate is Restrict or Cascade, Schema.Update fails with UpdateRestricted and
the store is completely unchanged — no key is written or removed.  For later
positions the claimed unchanged-store guarantee fails: the counterexample
shows a restricting reference preceded by one existing NoAction reference
aborting with UpdateRestricted only after that earlier iteration has already
re-persisted the record. -/
theorem schemaUpdate_restrictFirst_storeUnchanged {δ : Type} (s : Schema δ)
    (db : Disk (Schema δ)) (ref : SchemaReference) (rest : List SchemaReference)
    (newKey : String) (onUpd : Option (Schema δ → Schema δ))
    (href : s.references = ref :: rest)
    (hhas : YamlDb.Has db ref.key = true)
    (hupd : ref.constraints.update = Cascade ∨ ref.constraints.update = Restrict) :
    Schema.update s db newKey onUpd = (db, some DbError.updateRestricted) := by
  unfold Schema.update
  rw [href]
  simp only [Schema.updateLoop, hhas, Bool.true_eq_false, if_false, if_pos hupd]

/-- Witness for the amended C4: a restricting first reference on a concrete
store aborts with UpdateRestricted and leaves the store untouched. -/
theorem schemaUpdate_restrictFirst_storeUnchanged_witness :
    Schema.update
        { version := 1, key := "a", references := [refCRestrictUpd], data := (10 : Int) }
        dbA3 "z" none
      = (dbA3, some DbError.updateRestricted) := by
  exact schemaUpdate_restrictFirst_storeUnchanged _ dbA3 refCRestrictUpd [] "z" none
    rfl rfl (Or.inr rfl)

/-! ### Ordered index enumeration (`GetOrderedKeys`, `sorting.go`) -/

/-- Go `strings.HasPrefix key pre`: the characters of `pre` are an initial
segment of the characters of `key`. -/
def keyStartsWith (k pre : String) : Bool :=
  pre.data.isPrefixOf k.data

/-- Byte-lexicographic comparison of Go strings, modelled on character lists
(UTF-8 byte order and code-point order agree). -/
def lexLt : List Char → List Char → Bool
  | [], [] => false
  | [], _ :: _ => true
  | _ :: _, [] => false
  | a :: as, b :: bs => if a = b then lexLt as bs else decide (a < b)

/-- OrderAlphabetically (`sorting.go`): `a < b`, keys ordered a → z. -/
def OrderAlphabetically (a b : String) : Bool := lexLt a.data b.data

/-- OrderAlphabeticallyReversed (`sorting.go`): `a > b`, keys ordered z → a. -/
def OrderAlphabeticallyReversed (a b : String) : Bool := lexLt b.data a.data

/-- Modelled from the spec: the ordered-index collaborator (diskv's
`BTreeIndex.Keys`, not part of this repository).  The index content is the
list of stored keys in comparator order.  A fetch returns up to `n` keys:
resuming strictly after `fro` when `fro` names an existing index entry, and
from the start of the index when `fro` is empty or not present (spec §4.2
`orderedKeys`: "walks the ordered index starting strictly after `startAfter`
(empty string = from the beginning), fetching `chunkSize` keys at a time"). -/
def btreeIndexKeys (less : String → String → Bool) (idx : List String) (fro : String)
    (n : Nat) : List String :=
  if fro = "" ∨ fro ∉ idx then idx.take n
  else ((idx.dropWhile (fun k => less k fro)).drop 1).take n

/-- Fetch loop of `YamlDb.GetOrderedKeys` (part_000 lines 229–242): while the
fetched chunk is non-empty, keep the keys matching the required leading
string and fetch the next chunk starting from the last key of the current
one (with chunk size `chunks + 1`, as in the source).  The loop is embedded
with explicit fuel; `none` means the loop failed to exit within the fuel
budget, and the termination theorem shows this never happens from the fuel
budget `GetOrderedKeys` supplies. -/
def getOrderedKeysLoop (less : String → String → Bool) (idx : List String) (pre : String)
    (chunks : Nat) : Nat → List String → List String → Option (List String)
  | 0, _, _ => none
  | fuel + 1, keys, acc =>
    match keys with
    | [] => some acc
    | k :: ks =>
      getOrderedKeysLoop less idx pre chunks fuel
        (btreeIndexKeys less idx ((k :: ks).getLast (List.cons_ne_nil k ks)) (chunks + 1))
        (acc ++ (k :: ks).filter (fun s => keyStartsWith s pre))

/-- YamlDb.GetOrderedKeys (part_000 lines 229–242), with fuel budget
`idx.length + 1`, which the termination theorem proves sufficient. -/
def GetOrderedKeys (less : String → String → Bool) (idx : List String) (pre fro : String)
    (chunks : Nat) : Option (List String) :=
  getOrderedKeysLoop less idx pre chunks (idx.length + 1) (btreeIndexKeys less idx fro chunks) []

theorem dropWhile_append_cons {α : Type} (f : α → Bool) (p r : List α) (y : α)
    (hp : ∀ a ∈ p, f a = true) (hy : f y = false) :
    (p ++ y :: r).dropWhile f = y :: r := by
  induction p with
  | nil => simp [List.dropWhile_cons, hy]
  | cons a as ih =>
    have ha := hp a (by simp)
    simp only [List.cons_append, List.dropWhile_cons, ha, if_true]
    exact ih fun b hb => hp b (by simp [hb])

theorem btreeIndexKeys_resume (less : String → String → Bool) (idx q r : List String)
    (y : String) (n : Nat)
    (hidx : idx = q ++ y :: r)
    (hirr : ∀ a ∈ idx, less a a = false)
    (hsort : idx.Pairwise (fun a b => less a b = true))
    (hy : y ≠ "") :
    btreeIndexKeys less idx y n = r.take n := by
  subst hidx
  have hmem : y ∈ q ++ y :: r := by simp
  have hcond : ¬ (y = "" ∨ y ∉ q ++ y :: r) := by
    push_neg
    exact ⟨hy, hmem⟩
  unfold btreeIndexKeys
  rw [if_neg hcond]
  have hq : ∀ a ∈ q, less a y = true :=
    fun a ha => (List.pairwise_append.mp hsort).2.2 a ha y (by simp)
  rw [dropWhile_append_cons _ q r y hq (hirr y hmem)]
  simp

theorem getOrderedKeysLoop_eq (less : String → String → Bool) (idx : List String)
    (pre : String) (chunks : Nat)
    (hirr : ∀ a ∈ idx, less a a = false)
    (hsort : idx.Pairwise (fun a b => less a b = true))
    (hne : "" ∉ idx) :
    ∀ (fuel : Nat) (p rest acc : List String) (m : Nat),
      idx = p ++ rest → 1 ≤ m → rest.length < fuel →
      getOrderedKeysLoop less idx pre chunks fuel (rest.take m) acc
        = some (acc ++ rest.filter (fun k => keyStartsWith k pre)) := by
  intro fuel
  induction fuel with
  | zero =>
    intro p rest acc m _ _ hlen
    exact absurd hlen (Nat.not_lt_zero _)
  | succ fuel ih =>
    intro p rest acc m hidx hm hlen
    cases rest with
    | nil =>
      simp [getOrderedKeysLoop]
    | cons x rs =>
      obtain ⟨m', rfl⟩ : ∃ m', m = m' + 1 := ⟨m - 1, by omega⟩
      rw [List.take_succ_cons]
      have hcons : (x :: rs.take m' : List String) ≠ [] := List.cons_ne_nil _ _
      have hsplit1 : (x :: rs : List String) = (x :: rs.take m') ++ rs.drop m' := by
        rw [List.cons_append, List.take_append_drop]
      have hsplit2 : (x :: rs.take m' : List String)
          = (x :: rs.take m').dropLast ++ [(x :: rs.take m').getLast hcons] :=
        (List.dropLast_append_getLast hcons).symm
      have hidx2 : idx = (p ++ (x :: rs.take m').dropLast)
          ++ (x :: rs.take m').getLast hcons :: rs.drop m' := by
        rw [hidx, hsplit1]
        nth_rewrite 1 [hsplit2]
        simp [List.append_assoc]
      have hymem : (x :: rs.take m').getLast hcons ∈ idx := by
        rw [hidx2]
        exact List.mem_append_right _ (by simp)
      have hyne : (x :: rs.take m').getLast hcons ≠ "" :=
        fun h => hne (h ▸ hymem)
      have hbt : btreeIndexKeys less idx ((x :: rs.take m').getLast hcons) (chunks + 1)
          = (rs.drop m').take (chunks + 1) :=
        btreeIndexKeys_resume less idx _ _ _ _ hidx2 hirr hsort hyne
      have hstep : getOrderedKeysLoop less idx pre chunks (fuel + 1) (x :: rs.take m') acc
          = getOrderedKeysLoop less idx pre chunks fuel
              (btreeIndexKeys less idx ((x :: rs.take m').getLast hcons) (chunks + 1))
              (acc ++ (x :: rs.take m').filter (fun s => keyStartsWith s pre)) := rfl
      rw [hstep, hbt]
      have hidx3 : idx = (p ++ (x :: rs.take m')) ++ rs.drop m' := by
        rw [hidx, hsplit1, List.append_assoc]
      have hlen2 : (rs.drop m').length < fuel := by
        have := List.length_drop m' rs
        simp only [List.length_cons] at hlen
        omega
      rw [ih (p ++ (x :: rs.take m')) (rs.drop m')
        (acc ++ (x :: rs.take m').filter (fun s => keyStartsWith s pre))
        (chunks + 1) hidx3 (by omega) hlen2]
      have hfil : (x :: rs : List String).filter (fun k => keyStartsWith k pre)
          = (x :: rs.take m').filter (fun k => keyStartsWith k pre)
            ++ (rs.drop m').filter (fun k => keyStartsWith k pre) := by
        nth_rewrite 1 [hsplit1]
        rw [List.filter_append]
      rw [hfil, List.append_assoc]

/-- Termination and functional characterisation of the fetch loop for an
arbitrary starting key: within fuel `idx.length + 1` the loop always exits.
Shared helper for the claims about GetOrderedKeys. -/
theorem getOrderedKeys_total (less : String → String → Bool) (idx : List String)
    (pre fro : String) (chunks : Nat)
    (hirr : ∀ a ∈ idx, less a a = false)
    (hsort : idx.Pairwise (fun a b => less a b = true))
    (hne : "" ∉ idx) :
    ∃ l, GetOrderedKeys less idx pre fro chunks = some l := by
  unfold GetOrderedKeys
  by_cases hc : fro = "" ∨ fro ∉ idx
  · have hbt : btreeIndexKeys less idx fro chunks = idx.take chunks := by
      unfold btreeIndexKeys
      rw [if_pos hc]
    rw [hbt]
    cases chunks with
    | zero => exact ⟨[], by simp [getOrderedKeysLoop]⟩
    | succ c =>
      have h := getOrderedKeysLoop_eq less idx pre (c + 1) hirr hsort hne
        (idx.length + 1) [] idx [] (c + 1) rfl (by omega) (by omega)
      exact ⟨idx.filter (fun k => keyStartsWith k pre), by simpa using h⟩
  · push_neg at hc
    obtain ⟨hfro, hmem⟩ := hc
    obtain ⟨q, r, hidx⟩ := List.append_of_mem hmem
    rw [btreeIndexKeys_resume less idx q r fro chunks hidx hirr hsort hfro]
    cases chunks with
    | zero => exact ⟨[], by simp [getOrderedKeysLoop]⟩
    | succ c =>
      refine ⟨r.filter (fun k => keyStartsWith k pre), ?_⟩
      have hlen : r.length < idx.length + 1 := by
        rw [hidx]
        simp [List.length_append]
        omega
      have := getOrderedKeysLoop_eq less idx pre (c + 1) hirr hsort hne
        (idx.length + 1) (q ++ [fro]) r [] (c + 1) (by rw [hidx]; simp) (by omega) hlen
      simpa using this

/-- Claim C5: with sorting enabled, GetOrderedKeys over the whole index (empty
starting key) returns exactly the stored keys that start with the requested
leading string, in the comparator order of the index, with no key duplicated
or omitted, for every chunk size ≥ 1 (the right-hand side does not mention the
chunk size).  `idx` is the index content: the stored keys listed in comparator
order (strict sortedness w.r.t. the configured comparator), and stored keys
are non-empty strings. -/
theorem getOrderedKeys_sortedFilter (less : String → String → Bool) (idx : List String)
    (pre : String) (chunks : Nat)
    (hchunks : 1 ≤ chunks)
    (hirr : ∀ a ∈ idx, less a a = false)
    (hsort : idx.Pairwise (fun a b => less a b = true))
    (hne : "" ∉ idx) :
    GetOrderedKeys less idx pre "" chunks
      = some (idx.filter (fun k => keyStartsWith k pre)) := by
  unfold GetOrderedKeys
  have hbt : btreeIndexKeys less idx "" chunks = idx.take chunks := by
    unfold btreeIndexKeys
    rw [if_pos (Or.inl rfl)]
  rw [hbt]
  simpa using getOrderedKeysLoop_eq less idx pre chunks hirr hsort hne
    (idx.length + 1) [] idx [] chunks rfl hchunks (by omega)

/-- Witness for C5: the spec's own examples — writing {d,b,a,c} with the
ascending comparator and chunk size 2 yields [a,b,c,d]; with the descending
comparator yields [d,c,b,a]; and the "sub/" filter example. -/
theorem getOrderedKeys_sortedFilter_witness :
    GetOrderedKeys OrderAlphabetically ["a", "b", "c", "d"] "" "" 2
      = some ["a", "b", "c", "d"] ∧
    GetOrderedKeys OrderAlphabeticallyReversed ["d", "c", "b", "a"] "" "" 2
      = some ["d", "c", "b", "a"] ∧
    GetOrderedKeys OrderAlphabetically
        ["a", "b", "c", "sub/a", "sub/b", "sub/c", "x", "y", "z"] "sub/" "" 10
      = some ["sub/a", "sub/b", "sub/c"] := by
  refine ⟨?_, ?_, ?_⟩
  · exact (getOrderedKeys_sortedFilter OrderAlphabetically ["a", "b", "c", "d"] "" 2
      (by omega) (by decide) (by decide) (by decide)).trans (by decide)
  · exact (getOrderedKeys_sortedFilter OrderAlphabeticallyReversed ["d", "c", "b", "a"] "" 2
      (by omega) (by decide) (by decide) (by decide)).trans (by decide)
  · exact (getOrderedKeys_sortedFilter OrderAlphabetically
      ["a", "b", "c", "sub/a", "sub/b", "sub/c", "x", "y", "z"] "sub/" 10
      (by omega) (by decide) (by decide) (by decide)).trans (by decide)

/-- Claim C6: with sorting enabled the fetch loop of GetOrderedKeys
terminates for every index content, leading-string filter, starting key and
chunk size: each non-empty chunk resumes strictly after its last key, so the
loop exits within `idx.length + 1` chunk fetches (the embedded fuel budget)
and returns a value even when no fetched key matches the filter. -/
theorem getOrderedKeys_terminates (less : String → String → Bool) (idx : List String)
    (pre fro : String) (chunks : Nat)
    (hirr : ∀ a ∈ idx, less a a = false)
    (hsort : idx.Pairwise (fun a b => less a b = true))
    (hne : "" ∉ idx) :
    ∃ l, GetOrderedKeys less idx pre fro chunks = some l :=
  getOrderedKeys_total less idx pre fro chunks hirr hsort hne

/-- Witness for C6: enumeration starting from the middle key "b" with a
filter that matches nothing still terminates. -/
theorem getOrderedKeys_terminates_witness :
    ∃ l, GetOrderedKeys OrderAlphabetically ["a", "b", "c"] "zz" "b" 1 = some l :=
  getOrderedKeys_terminates OrderAlphabetically ["a", "b", "c"] "zz" "b" 1
    (by decide) (by decide) (by decide)

/-- Index initialization in `New` (part_000 lines 74–80): the BTree index is
created (empty) iff SortKeys is set; otherwise the Index field remains nil,
modelled as `none`. -/
def newIndex (sortKeys : Bool) : Option (List String) :=
  if sortKeys then some [] else none

/-- Nil-guarded entry to GetOrderedKeys: the loop's very first action is
`db.Disk.Index.Keys(...)`, a nil-pointer dereference when the index was never
created.  The outer `none` models that panic; `some` carries the normal
GetOrderedKeys result. -/
def GetOrderedKeysChecked (less : String → String → Bool) (index : Option (List String))
    (pre fro : String) (chunks : Nat) : Option (Option (List String)) :=
  match index with
  | none => none
  | some idx => some (GetOrderedKeys less idx pre fro chunks)

/-- Claim C10: GetOrderedKeys has SortKeys = true as an unstated
precondition.  With SortKeys = false, `New` leaves the index nil and every
call to GetOrderedKeys dereferences the nil index (the panic outcome `none`),
for all arguments.  With SortKeys = true the index is initialized (to the
empty index, growing with writes), the nil branch is unreachable, and every
call on an index state satisfying the index invariants returns normally. -/
theorem getOrderedKeys_sortKeysPrecondition (less : String → String → Bool) :
    (∀ (pre fro : String) (chunks : Nat),
      GetOrderedKeysChecked less (newIndex false) pre fro chunks = none) ∧
    newIndex true = some [] ∧
    (∀ (idx : List String) (pre fro : String) (chunks : Nat),
      (∀ a ∈ idx, less a a = false) →
      idx.Pairwise (fun a b => less a b = true) →
      "" ∉ idx →
      ∃ l, GetOrderedKeysChecked less (some idx) pre fro chunks = some (some l)) := by
  refine ⟨fun _ _ _ => rfl, rfl, ?_⟩
  intro idx pre fro chunks hirr hsort hne
  obtain ⟨l, hl⟩ := getOrderedKeys_total less idx pre fro chunks hirr hsort hne
  exact ⟨l, by simp [GetOrderedKeysChecked, hl]⟩

/-- Witness for C10: a store created without SortKeys panics on any call; a
sorted two-key index returns normally. -/
theorem getOrderedKeys_sortKeysPrecondition_witness :
    GetOrderedKeysChecked OrderAlphabetically (newIndex false) "" "" 2 = none ∧
    (∃ l, GetOrderedKeysChecked OrderAlphabetically (some ["a", "b"]) "" "" 2
      = some (some l)) := by
  refine ⟨(getOrderedKeys_sortKeysPrecondition OrderAlphabetically).1 "" "" 2, ?_⟩
  exact (getOrderedKeys_sortKeysPrecondition OrderAlphabetically).2.2 ["a", "b"] "" "" 2
    (by decide) (by decide) (by decide)

/-! ### Key-to-path transform (`AdvancedTransform` closure in `New`, part_000) -/

/-- The fixed ".yaml" extension (Go `const extension`), as characters. -/
def extChars : List Char := ['.', 'y', 'a', 'm', 'l']

/-- Go `strings.HasSuffix key suf` on character lists. -/
def hasSuffixChars (key suf : List Char) : Bool :=
  suf.isSuffixOf key

/-- Extension-append rule of AdvancedTransform (part_000 lines 52–55): when
appendExtension is configured and the key does not already end in ".yaml",
append the extension; otherwise leave the key unchanged. -/
def applyExtension (appendExtension : Bool) (key : List Char) : List Char :=
  if appendExtension && !(hasSuffixChars key extChars) then key ++ extChars else key

/-- PathKey (diskv): directory path segments plus filename. -/
structure PathKey where
  path : List (List Char)
  fileName : List Char
  deriving DecidableEq

/-- AdvancedTransform (part_000 lines 52–62): apply the extension rule, split
the key on '/', and take every segment but the last as the directory path and
the last segment as the filename (`splitOn` never returns an empty list, so
the defaulted last element is the Go `split[lastIndex]`). -/
def advancedTransform (appendExtension : Bool) (key : List Char) : PathKey :=
  let k := applyExtension appendExtension key
  let split := k.splitOn '/'
  { path := split.dropLast, fileName := split.getLastD [] }

/-- Claim C9: the key-to-path transform is idempotent with respect to the
extension.  First conjunct: applying the extension-append rule twice never
double-appends.  Second conjunct: on a key that already ends in ".yaml" the
rule appends nothing, so the transform with appendExtension enabled derives
exactly the same path and filename as the plain transform — the extension is
carried exactly once, and writes and reads with the same key resolve to the
same physical file. -/
theorem advancedTransform_extensionIdempotent (key : List Char) :
    applyExtension true (applyExtension true key) = applyExtension true key ∧
    (hasSuffixChars key extChars = true →
      advancedTransform true key = advancedTransform false key) := by
  constructor
  · by_cases h : hasSuffixChars key extChars
    · simp [applyExtension, h]
    · have h2 : hasSuffixChars (key ++ extChars) extChars = true := by
        simp [hasSuffixChars, List.isSuffixOf_iff_suffix]
      simp [applyExtension, h, h2]
  · intro h
    simp [advancedTransform, applyExtension, h]

/-- Witness for C9 at the concrete keys "a/b.yaml" (already extended) and "b"
(extension appended once, second application a no-op). -/
theorem advancedTransform_extensionIdempotent_witness :
    advancedTransform true ("a/b.yaml".data) = advancedTransform false ("a/b.yaml".data) ∧
    applyExtension true (applyExtension true ("b".data)) = applyExtension true ("b".data) := by
  constructor
  · exact (advancedTransform_extensionIdempotent ("a/b.yaml".data)).2 (by decide)
  · exact (advancedTransform_extensionIdempotent ("b".data)).1

end YamlDbProof
